import Mathlib

/-
Verification of the object-model code generator in
`tatsu/ngcodegen/objectmodel.py`.

The Python module is shallowly embedded below.  Rules, grammars and the
base runtime type are plain records; Python dictionaries are embedded as
association lists built with `upsert`, which reproduces CPython dict
semantics exactly: insertion order is preserved, re-inserting an existing
key updates the value in place and keeps the original position.  Python
sets that are only consumed through membership or through `sorted` are
embedded as duplicate-free lists (`dedupFirst`), which is
observation-equivalent for every use in the module.  The collaborators
that the module imports from the rest of the repository
(`tatsu.util.safe_name`, `tatsu.util.compress_seq`,
`tatsu.util.misc.topsort`, `IndentPrintMixin`, the builtins namespace)
are not part of the provided sources and are modelled from the
specification; each such definition carries a doc comment saying so.
-/

/-- A declared parameter of a rule.  The generator only ever asks whether
the first parameter is a string (`isinstance(rule.params[0], str)`), so a
parameter is either a string or an opaque non-string value. -/
inductive Param where
  | str (s : String)
  | other
deriving DecidableEq, Repr

/-- A grammar rule as consumed by the generator: a name, the declared
parameter list, and the result of `rule.defines()` (the ordered sequence
of attribute bindings, pairs of a name and a list flag). -/
structure Rule where
  name : String
  params : List Param
  defines : List (String × Bool)
deriving DecidableEq, Repr

/-- A grammar: its name and its ordered collection of rules. -/
structure Grammar where
  name : String
  rules : List Rule
deriving DecidableEq, Repr

/-- The externally supplied root runtime type.  Only its `__module__` and
its `__name__` are consumed by the generator. -/
structure BaseType where
  modName : String
  typeName : String
deriving DecidableEq, Repr

/-- The `BaseClassSpec` namedtuple: one edge of the class hierarchy,
`class_name` directly extends `base`. -/
structure BaseClassSpec where
  class_name : String
  base : String
deriving DecidableEq, Repr, Inhabited

/-- CPython dict insert: if the key is present, update the value in place
keeping its position; otherwise append the pair at the end. -/
def upsert {α : Type} (k : String) (v : α) : List (String × α) → List (String × α)
  | [] => [(k, v)]
  | p :: rest => if p.1 = k then (k, v) :: rest else p :: upsert k v rest

/-- CPython dict lookup (`d.get(k)` / `d[k]`). -/
def alGet {α : Type} (k : String) : List (String × α) → Option α
  | [] => none
  | p :: rest => if p.1 = k then some p.2 else alGet k rest

/-- Build a CPython dict from a stream of key-value pairs. -/
def dictOf {α : Type} (l : List (String × α)) : List (String × α) :=
  l.foldl (fun acc q => upsert q.1 q.2 acc) []

/-- Remove duplicates keeping the first occurrence of each element; `seen`
accumulates the elements already kept. -/
def dedupFirstAux {α : Type} [DecidableEq α] (seen : List α) : List α → List α
  | [] => []
  | x :: xs =>
      if x ∈ seen then dedupFirstAux seen xs
      else x :: dedupFirstAux (x :: seen) xs

/-- Duplicate removal keeping first occurrences: the embedding of a Python
set whose only observations are membership and `sorted`. -/
def dedupFirst {α : Type} [DecidableEq α] (l : List α) : List α :=
  dedupFirstAux [] l

/-- Modelled from the spec: `tatsu.util.compress_seq` is not in the given
sources; the spec describes the attribute sequence as having duplicates
collapsed with the order of first occurrence preserved. -/
def compress_seq (l : List (String × Bool)) : List (String × Bool) :=
  dedupFirst l

/-- The reserved words of the target language, used by name sanitization. -/
def pythonKeywords : List String :=
  ["False", "None", "True", "and", "as", "assert", "async", "await",
   "break", "class", "continue", "def", "del", "elif", "else", "except",
   "finally", "for", "from", "global", "if", "import", "in", "is",
   "lambda", "nonlocal", "not", "or", "pass", "raise", "return", "try",
   "while", "with", "yield"]

/-- Modelled from the spec: `tatsu.util.safe_name` is not in the given
sources; the spec describes it as mapping arbitrary identifiers to safe
output identifiers, which for Python means suffixing reserved words. -/
def safe_name (name : String) : String :=
  if name ∈ pythonKeywords then name ++ "_" else name

/-- Modelled from the spec: the builtins namespace of the target language
(`vars(builtins)` in the source), an external environment, embedded as a
representative finite set of global builtin identifiers. -/
def builtinsNames : List String :=
  ["abs", "all", "any", "bool", "bytes", "callable", "chr", "dict",
   "dir", "divmod", "enumerate", "filter", "float", "format",
   "frozenset", "getattr", "hasattr", "hash", "hex", "id", "input",
   "int", "isinstance", "issubclass", "iter", "len", "list", "map",
   "max", "min", "next", "object", "oct", "open", "ord", "pow",
   "print", "range", "repr", "reversed", "round", "set", "setattr",
   "slice", "sorted", "staticmethod", "str", "sum", "super", "tuple",
   "type", "vars", "zip", "None", "True", "False", "Exception",
   "ValueError", "TypeError", "KeyError"]

/-- Split a character stream at every occurrence of the two-character
separator `::`, leftmost non-overlapping first, exactly like the Python
expression `s.split("::")` (structural, so that it evaluates in the
kernel). -/
def splitOnColons : List Char → List (List Char)
  | [] => [[]]
  | ':' :: ':' :: rest => [] :: splitOnColons rest
  | c :: rest =>
      match splitOnColons rest with
      | g :: gs => (c :: g) :: gs
      | [] => [[c]]

/-- The Python expression `s.split("::")`. -/
def pySplitColons (s : String) : List String :=
  (splitOnColons s.data).map fun cs => String.mk cs

/-- Split a character stream at every occurrence of the character `c`,
like the Python expression `s.split(c)` for a one-character separator. -/
def splitOnChar (c : Char) : List Char → List (List Char)
  | [] => [[]]
  | x :: rest =>
      if x = c then [] :: splitOnChar c rest
      else
        match splitOnChar c rest with
        | g :: gs => (x :: g) :: gs
        | [] => [[x]]

/-- The Python expression `s.split(".")`. -/
def pySplitDot (s : String) : List String :=
  (splitOnChar '.' s.data).map fun cs => String.mk cs

/-- `PythonModelGenerator._model_base_name`: the constant synthetic root
base name. -/
def _model_base_name : String := "ModelBase"

/-- Consecutive pairs of a chain: the list comprehension
`[BaseClassSpec(cn, class_names[i + 1]) for i, cn in enumerate(class_names[:-1])]`. -/
def chainPairs : List String → List BaseClassSpec
  | a :: b :: rest => ⟨a, b⟩ :: chainPairs (b :: rest)
  | _ => []

/-- `PythonModelGenerator._base_class_specs`: the Hierarchy Extractor. -/
def _base_class_specs (rule : Rule) : List BaseClassSpec :=
  match rule.params with
  | Param.str s :: _ =>
      chainPairs ((pySplitColons s).map safe_name ++ [_model_base_name])
  | _ => []

/-- Modelled from the spec: `tatsu.util.misc.topsort` is not in the given
sources.  One Kahn step with a deterministic tie-break: emit the first
node, in the given node order, none of whose bases is still pending; on a
cycle (no such node) dump the pending nodes as they are, and recurse on
the rest.  `fuel` bounds the recursion by the number of nodes. -/
def topsortAux (edges : List BaseClassSpec) : Nat → List String → List String
  | 0, remaining => remaining
  | fuel + 1, remaining =>
      match remaining.find?
          (fun n => decide (∀ e ∈ edges, e.class_name = n → e.base ∉ remaining)) with
      | none => remaining
      | some n => n :: topsortAux edges fuel (remaining.erase n)

/-- Modelled from the spec: deterministic topological sort of the given
nodes such that a class never precedes its base (spec section 4.2 step 4,
Kahn with a stable tie-break). -/
def topsort (nodes : List String) (edges : List BaseClassSpec) : List String :=
  topsortAux edges nodes.length nodes

/-- `base_type.__name__.split(".")[-1]` in `generate_model`. -/
def baseTypeName (bt : BaseType) : String :=
  (pySplitDot bt.typeName).getLastD ""

/-- The local `rule_index` of `generate_model`:
`{rule.name: rule for rule in grammar.rules}`. -/
def ruleIndex (g : Grammar) : List (String × Rule) :=
  dictOf (g.rules.map fun r => (r.name, r))

/-- The first `rule_specs` dict of `generate_model`:
`{rule.name: self._base_class_specs(rule) for rule in grammar.rules}`. -/
def ruleSpecsAll (g : Grammar) : List (String × List BaseClassSpec) :=
  dictOf (g.rules.map fun r => (r.name, _base_class_specs r))

/-- The filtered `rule_specs` dict:
`{name: specs for name, specs in rule_specs.items() if specs}`. -/
def ruleSpecs (g : Grammar) : List (String × List BaseClassSpec) :=
  (ruleSpecsAll g).filter fun p => decide (p.2 ≠ [])

/-- All spec edges of all kept rules, in order, with repetitions. -/
def joinedSpecs (g : Grammar) : List BaseClassSpec :=
  List.flatten ((ruleSpecs g).map Prod.snd)

/-- The `specs_by_name` dict mapping every class name to its base, with
the final assignment `specs_by_name[base] = base_type_name`. -/
def specsByName (g : Grammar) (btn : String) : List (String × String) :=
  upsert _model_base_name btn
    (dictOf ((joinedSpecs g).map fun s => (s.class_name, s.base)))

/-- The `all_specs` set of deduplicated edges. -/
def allSpecs (g : Grammar) : List BaseClassSpec :=
  dedupFirst (joinedSpecs g)

/-- `model_names = topsort(reversed(specs_by_name), all_specs)`. -/
def modelNames (g : Grammar) (btn : String) : List String :=
  topsort (((specsByName g btn).map Prod.fst).reverse) (allSpecs g)

/-- The `model_to_rule` dict: leaf class name of each kept rule mapped
back to the rule, in `rule_index` order. -/
def modelToRule (g : Grammar) : List (String × Rule) :=
  dictOf ((ruleIndex g).filterMap fun p =>
    match alGet p.1 (ruleSpecs g) with
    | some (s :: _) => some (s.class_name, p.2)
    | _ => none)

/-- Lexicographic comparison of character streams by code point, the
comparison Python `sorted` uses on strings (structural, so that it
evaluates in the kernel). -/
def lexLe : List Char → List Char → Bool
  | [], _ => true
  | _ :: _, [] => false
  | a :: as, b :: bs =>
      if a.val < b.val then true
      else if b.val < a.val then false
      else lexLe as bs

/-- Python string comparison `a <= b`: lexicographic by code point. -/
def pyStrLe (a b : String) : Bool :=
  lexLe a.data b.data

/-- The order relation `sorted` uses, as a proposition. -/
def PyLe (a b : String) : Prop :=
  pyStrLe a b = true

instance : DecidableRel PyLe := fun a b => instDecidableEqBool (pyStrLe a b) true

/-- The sorted attribute list of `_gen_rule_class`:
`sorted({safe_name(d) for d, _ in compress_seq(rule.defines())})`. -/
def ruleClassFields (rule : Rule) : List String :=
  List.insertionSort PyLe
    (((compress_seq rule.defines).map fun d => safe_name d.1).dedup)

/-- `PythonModelGenerator._gen_rule_class`, as the list of lines it
prints (the writer indents the body by four spaces). -/
def _gen_rule_class (rule : Rule) (specs : List BaseClassSpec) : List String :=
  match specs with
  | [] => []
  | spec :: _ =>
      let arguments := ruleClassFields rule
      let cn := spec.class_name
      let b := spec.base
      ["", "", "@dataclass(eq=False)", s!"class {cn}({b}):"] ++
      (if arguments.isEmpty then ["    pass"] else []) ++
      arguments.map fun arg => s!"    {arg}: Any = None"

/-- `PythonModelGenerator._gen_base_class`, as the list of lines it
prints. -/
def _gen_base_class (class_name : String) (base : Option String) : List String :=
  ["", "", "@dataclass(eq=False)"] ++
  (match base with
   | some b => [s!"class {class_name}({b}):"]
   | none => [s!"class {class_name}:"]) ++
  ["    pass"]

/-- One iteration of the emission loop of `generate_model` for one sorted
model name: skip builtins, emit a rule-backed class when the name is a
leaf class of a rule, otherwise a synthetic base class. -/
def emitBlock (g : Grammar) (btn : String) (n : String) : List String :=
  if n ∈ builtinsNames then []
  else
    match alGet n (modelToRule g) with
    | some rule => _gen_rule_class rule ((alGet rule.name (ruleSpecs g)).getD [])
    | none => _gen_base_class n (alGet n (specsByName g btn))

/-- All lines printed by the emission loop of `generate_model`. -/
def bodyLines (g : Grammar) (btn : String) : List String :=
  List.flatten ((modelNames g btn).map (emitBlock g btn))

/-- The class names the emission loop actually declares: the sorted model
names minus the skipped builtins. -/
def declaredClassNames (g : Grammar) (btn : String) : List String :=
  (modelNames g btn).filter fun n => decide (n ∉ builtinsNames)

/-- Modelled from the spec: the lines of the fixed preamble (the `HEADER`
template of the source after the scoped-indentation writer dedents it),
formatted with the semantics-class name and the import of the root
type. -/
def headerLines (nm : String) (baseTypeImport : String) : List String :=
  ["#!/usr/bin/env python3",
   "",
   "# WARNING: CAVEAT UTILITOR",
   "#",
   "# This file was automatically generated by TatSu.",
   "#",
   "#    https://pypi.python.org/pypi/tatsu/",
   "#",
   "# Any changes you make to it will be overwritten the next time",
   "# the file is generated.",
   "",
   "from __future__ import annotations",
   "",
   "from typing import Any",
   "from dataclasses import dataclass",
   "",
   "from tatsu.semantics import ModelBuilderSemantics",
   baseTypeImport,
   "",
   "",
   s!"class {nm}ModelBuilderSemantics(ModelBuilderSemantics):",
   "    def __init__(self, context=None, types=None):",
   "        types = [",
   "            t for t in globals().values()",
   "            if type(t) is type and issubclass(t, ModelBase)",
   "        ] + (types or [])",
   "        super().__init__(context=context, types=types)"]

/-- `PythonModelGenerator.generate_model`, as the full list of printed
lines: the formatted header followed by the emission loop. -/
def generate_model (g : Grammar) (nm : String) (bt : BaseType) : List String :=
  let btn := baseTypeName bt
  let name := if nm = "" then g.name else nm
  let m := bt.modName
  headerLines name s!"from {m} import {btn}" ++ bodyLines g btn

/-- Modelled from the spec: the accumulating text buffer of the
scoped-indentation writer, rendered to a single text. -/
def printedText (lines : List String) : String :=
  String.intercalate "\n" lines

/-- The default root type `tatsu.objectmodel.Node`. -/
def nodeBaseType : BaseType := ⟨"tatsu.objectmodel", "Node"⟩

/-- The top-level entry point `modelgen(model, name, base_type)`;
`base_type or objectmodel.Node` supplies the default root type. -/
def modelgen (g : Grammar) (nm : String) (bt : Option BaseType) : String :=
  printedText (generate_model g nm (bt.getD nodeBaseType))

/-- `b` occurs in `l` and some later position holds `c`: the statement
that the declaration of `b` textually precedes the declaration of `c`. -/
def Precedes (b c : String) (l : List String) : Prop :=
  ∃ l1 l2 l3, l = l1 ++ b :: (l2 ++ c :: l3)

/-- Executable check for `Precedes`. -/
def precedesB (b c : String) : List String → Bool
  | [] => false
  | x :: xs => (x == b && xs.contains c) || precedesB b c xs

/-- A rule annotated with the single-name hierarchy `A`. -/
def ruleA1 : Rule := ⟨"r1", [Param.str "A"], []⟩

/-- A rule annotated `A::B`. -/
def ruleAB : Rule := ⟨"rab", [Param.str "A::B"], []⟩

/-- A grammar with the single rule annotated `A::B`. -/
def gAB : Grammar := ⟨"G", [ruleAB]⟩

/-- A rank function witnessing that the edge set of `gAB` is acyclic. -/
def rankAB : String → Nat :=
  fun s => if s = "A" then 2 else if s = "B" then 1 else 0

/-- A grammar whose two annotations `A::B` and `B::A` contradict each
other, so its aggregated edge set is cyclic. -/
def gCyc : Grammar := ⟨"G", [⟨"ra", [Param.str "A::B"], []⟩, ⟨"rb", [Param.str "B::A"], []⟩]⟩

/-- The round-trip grammar of the spec: one rule `foo` with params
`["Foo::Base"]` defining attributes `x` and `y`. -/
def g3 : Grammar := ⟨"Gr", [⟨"foo", [Param.str "Foo::Base"], [("x", false), ("y", false)]⟩]⟩

/-- A rule defining attributes `z, a, m, z` (with a duplicate) in a
non-lexicographic order. -/
def zamRule : Rule := ⟨"zam", [Param.str "Zam"], [("z", false), ("a", false), ("m", false), ("z", true)]⟩

/-- A rule with a hierarchy annotation and no attributes. -/
def emptyRule : Rule := ⟨"e", [Param.str "E"], []⟩

/-- A grammar with one unannotated rule (empty params) and one annotated
rule. -/
def g5 : Grammar := ⟨"G", [⟨"plain", [], [("x", false)]⟩, ⟨"ann", [Param.str "A"], []⟩]⟩

/-- A grammar whose rule names the builtin `list` as a base class. -/
def gList : Grammar := ⟨"G", [⟨"r", [Param.str "Foo::list"], []⟩]⟩

/-- Two rules declaring the same hierarchy `Shared::Root`, only the
second defining an attribute. -/
def gShared : Grammar :=
  ⟨"G", [⟨"one", [Param.str "Shared::Root"], []⟩, ⟨"two", [Param.str "Shared::Root"], [("a", false)]⟩]⟩

/-- Two distinct rules with the same leaf class name `L`. -/
def gDup : Grammar :=
  ⟨"G", [⟨"first", [Param.str "L::B1"], [("p", false)]⟩, ⟨"second", [Param.str "L::B2"], [("q", false)]⟩]⟩

/-! ### Library lemmas about the dictionary and set embeddings -/

theorem mem_dedupFirstAux {α : Type} [DecidableEq α] :
    ∀ (l seen : List α) (x : α), x ∈ dedupFirstAux seen l ↔ x ∈ l ∧ x ∉ seen := by
  intro l
  induction l with
  | nil => simp [dedupFirstAux]
  | cons y ys ih =>
      intro seen x
      simp only [dedupFirstAux]
      split_ifs with hy
      · rw [ih]
        constructor
        · rintro ⟨h1, h2⟩
          exact ⟨List.mem_cons_of_mem _ h1, h2⟩
        · rintro ⟨h1, h2⟩
          refine ⟨?_, h2⟩
          rcases List.mem_cons.mp h1 with rfl | h
          · exact absurd hy h2
          · exact h
      · rw [List.mem_cons, ih]
        constructor
        · rintro (rfl | ⟨h1, h2⟩)
          · exact ⟨List.mem_cons_self _ _, hy⟩
          · exact ⟨List.mem_cons_of_mem _ h1,
              fun hc => h2 (List.mem_cons_of_mem _ hc)⟩
        · rintro ⟨h1, h2⟩
          by_cases hxy : x = y
          · exact Or.inl hxy
          · rcases List.mem_cons.mp h1 with rfl | h
            · exact Or.inl rfl
            · exact Or.inr ⟨h, by simp [List.mem_cons, hxy, h2]⟩

theorem mem_dedupFirst {α : Type} [DecidableEq α] (l : List α) (x : α) :
    x ∈ dedupFirst l ↔ x ∈ l := by
  rw [dedupFirst, mem_dedupFirstAux]
  simp

theorem nodup_dedupFirstAux {α : Type} [DecidableEq α] :
    ∀ (l seen : List α), (dedupFirstAux seen l).Nodup := by
  intro l
  induction l with
  | nil => intro seen; simp [dedupFirstAux]
  | cons y ys ih =>
      intro seen
      simp only [dedupFirstAux]
      split_ifs with hy
      · exact ih seen
      · refine List.Nodup.cons ?_ (ih (y :: seen))
        intro hc
        exact ((mem_dedupFirstAux ys (y :: seen) y).mp hc).2 (List.mem_cons_self _ _)

theorem nodup_dedupFirst {α : Type} [DecidableEq α] (l : List α) :
    (dedupFirst l).Nodup :=
  nodup_dedupFirstAux l []

theorem mem_upsert {α : Type} (k : String) (v : α) :
    ∀ (l : List (String × α)) (p : String × α), p ∈ upsert k v l → p = (k, v) ∨ p ∈ l := by
  intro l
  induction l with
  | nil => intro p hp; simpa [upsert] using hp
  | cons q rest ih =>
      intro p hp
      simp only [upsert] at hp
      split_ifs at hp with hq
      · rcases List.mem_cons.mp hp with rfl | h
        · exact Or.inl rfl
        · exact Or.inr (List.mem_cons_of_mem _ h)
      · rcases List.mem_cons.mp hp with rfl | h
        · exact Or.inr (List.mem_cons_self _ _)
        · rcases ih p h with h1 | h1
          · exact Or.inl h1
          · exact Or.inr (List.mem_cons_of_mem _ h1)

theorem keys_upsert {α : Type} (k : String) (v : α) :
    ∀ l : List (String × α),
      (upsert k v l).map Prod.fst =
        if k ∈ l.map Prod.fst then l.map Prod.fst else l.map Prod.fst ++ [k] := by
  intro l
  induction l with
  | nil => simp [upsert]
  | cons q rest ih =>
      by_cases hq : q.1 = k
      · simp only [upsert, if_pos hq]
        have hk : k ∈ (q :: rest).map Prod.fst := by simp [← hq]
        rw [if_pos hk]
        simp [hq]
      · simp only [upsert, if_neg hq]
        by_cases hk : k ∈ rest.map Prod.fst
        · have hk2 : k ∈ (q :: rest).map Prod.fst := by simp [hk]
          rw [if_pos hk2]
          simp only [List.map_cons]
          rw [ih, if_pos hk]
        · have hk2 : k ∉ (q :: rest).map Prod.fst := by
            simp only [List.map_cons, List.mem_cons]
            push_neg
            exact ⟨fun h => hq h.symm, hk⟩
          rw [if_neg hk2]
          simp only [List.map_cons]
          rw [ih, if_neg hk]
          simp

theorem alGet_upsert {α : Type} (k : String) (v : α) :
    ∀ (l : List (String × α)) (q : String),
      alGet q (upsert k v l) = if k = q then some v else alGet q l := by
  intro l
  induction l with
  | nil => intro q; simp [upsert, alGet]
  | cons p rest ih =>
      intro q
      by_cases hp : p.1 = k
      · by_cases h1 : k = q
        · simp [upsert, alGet, hp, h1]
        · have hpq : ¬ p.1 = q := fun hc => h1 (hp.symm.trans hc)
          simp [upsert, alGet, hp, h1, hpq]
      · by_cases h2 : p.1 = q
        · have h1 : ¬ k = q := fun hc => hp (h2.trans hc.symm)
          have hqk : ¬ q = k := fun hc => h1 hc.symm
          simp [upsert, alGet, hp, h1, h2, hqk]
        · simp [upsert, alGet, hp, h2, ih]

theorem alGet_isSome_iff {α : Type} :
    ∀ (l : List (String × α)) (k : String),
      (alGet k l).isSome = true ↔ k ∈ l.map Prod.fst := by
  intro l
  induction l with
  | nil => intro k; simp [alGet]
  | cons p rest ih =>
      intro k
      simp only [alGet, List.map_cons, List.mem_cons]
      split_ifs with hp
      · simp [hp]
      · rw [ih]
        simp [Ne.symm hp]

theorem alGet_eq_none_of_not_mem {α : Type} (l : List (String × α)) (k : String)
    (h : k ∉ l.map Prod.fst) : alGet k l = none := by
  have h2 := (alGet_isSome_iff l k).not.mpr h
  cases he : alGet k l with
  | none => rfl
  | some v => exact absurd (by simp [he]) h2

theorem alGet_eq_some_of_mem {α : Type} (l : List (String × α)) (k : String)
    (h : k ∈ l.map Prod.fst) : ∃ v, alGet k l = some v := by
  have h2 := (alGet_isSome_iff l k).mpr h
  cases he : alGet k l with
  | none => rw [he] at h2; simp at h2
  | some v => exact ⟨v, rfl⟩

theorem mem_foldl_upsert {α : Type} :
    ∀ (l init : List (String × α)) (p : String × α),
      p ∈ l.foldl (fun acc q => upsert q.1 q.2 acc) init → p ∈ init ∨ p ∈ l := by
  intro l
  induction l with
  | nil => intro init p hp; exact Or.inl hp
  | cons q rest ih =>
      intro init p hp
      simp only [List.foldl_cons] at hp
      rcases ih (upsert q.1 q.2 init) p hp with h | h
      · rcases mem_upsert q.1 q.2 init p h with h1 | h1
        · right
          rw [h1]
          exact List.mem_cons_self _ _
        · exact Or.inl h1
      · exact Or.inr (List.mem_cons_of_mem _ h)

theorem keys_foldl_upsert_superset {α : Type} :
    ∀ (l init : List (String × α)) (k : String),
      k ∈ init.map Prod.fst →
      k ∈ (l.foldl (fun acc q => upsert q.1 q.2 acc) init).map Prod.fst := by
  intro l
  induction l with
  | nil => intro init k hk; exact hk
  | cons q rest ih =>
      intro init k hk
      simp only [List.foldl_cons]
      refine ih _ k ?_
      rw [keys_upsert]
      split_ifs with h
      · exact hk
      · exact List.mem_append_left _ hk

theorem key_mem_foldl_upsert {α : Type} :
    ∀ (l init : List (String × α)) (q : String × α),
      q ∈ l → q.1 ∈ (l.foldl (fun acc p => upsert p.1 p.2 acc) init).map Prod.fst := by
  intro l
  induction l with
  | nil => intro init q hq; exact absurd hq (List.not_mem_nil _)
  | cons p rest ih =>
      intro init q hq
      simp only [List.foldl_cons]
      rcases List.mem_cons.mp hq with rfl | h
      · refine keys_foldl_upsert_superset _ _ _ ?_
        rw [keys_upsert]
        split_ifs with h
        · exact h
        · exact List.mem_append_right _ (List.mem_singleton_self _)
      · exact ih _ q h

theorem nodup_keys_foldl_upsert {α : Type} :
    ∀ (l init : List (String × α)),
      (init.map Prod.fst).Nodup →
      ((l.foldl (fun acc q => upsert q.1 q.2 acc) init).map Prod.fst).Nodup := by
  intro l
  induction l with
  | nil => intro init h; exact h
  | cons q rest ih =>
      intro init h
      simp only [List.foldl_cons]
      refine ih _ ?_
      rw [keys_upsert]
      split_ifs with hk
      · exact h
      · rw [← List.concat_eq_append]
        exact List.Nodup.concat hk h

theorem getLast?_cons_isSome {α : Type} :
    ∀ (l : List α) (a : α), ((a :: l).getLast?).isSome = true := by
  intro l
  induction l with
  | nil => intro a; rfl
  | cons b t ih => intro a; rw [List.getLast?_cons_cons]; exact ih b

theorem getLast?_cons_eq_or {α : Type} (a : α) (l : List α) :
    (a :: l).getLast? = (l.getLast?).or (some a) := by
  cases l with
  | nil => rfl
  | cons b t =>
      rw [List.getLast?_cons_cons]
      cases h : (b :: t).getLast? with
      | none =>
          have h2 := getLast?_cons_isSome t b
          rw [h] at h2
          simp at h2
      | some v => simp [Option.or]

theorem alGet_foldl_upsert {α : Type} :
    ∀ (l init : List (String × α)) (k : String),
      alGet k (l.foldl (fun acc q => upsert q.1 q.2 acc) init) =
        (((l.filter fun q => decide (q.1 = k)).map Prod.snd).getLast?).or (alGet k init) := by
  intro l
  induction l with
  | nil => intro init k; simp [Option.or]
  | cons q rest ih =>
      intro init k
      simp only [List.foldl_cons, List.filter_cons]
      rw [ih, alGet_upsert]
      by_cases hq : q.1 = k
      · rw [if_pos hq, if_pos (by simp [hq])]
        simp only [List.map_cons]
        rw [getLast?_cons_eq_or]
        cases h : ((rest.filter fun p => decide (p.1 = k)).map Prod.snd).getLast? with
        | none => simp [Option.or]
        | some v => simp [Option.or]
      · rw [if_neg hq, if_neg (by simp [hq])]

theorem mem_dictOf {α : Type} (l : List (String × α)) (p : String × α)
    (hp : p ∈ dictOf l) : p ∈ l := by
  rcases mem_foldl_upsert l [] p hp with h | h
  · exact absurd h (List.not_mem_nil _)
  · exact h

theorem key_mem_dictOf {α : Type} (l : List (String × α)) (q : String × α)
    (hq : q ∈ l) : q.1 ∈ (dictOf l).map Prod.fst :=
  key_mem_foldl_upsert l [] q hq

theorem nodup_keys_dictOf {α : Type} (l : List (String × α)) :
    ((dictOf l).map Prod.fst).Nodup :=
  nodup_keys_foldl_upsert l [] (by simp)

theorem alGet_dictOf {α : Type} (l : List (String × α)) (k : String) :
    alGet k (dictOf l) =
      ((l.filter fun q => decide (q.1 = k)).map Prod.snd).getLast? := by
  rw [dictOf, alGet_foldl_upsert]
  cases ((l.filter fun q => decide (q.1 = k)).map Prod.snd).getLast? with
  | none => simp [alGet, Option.or]
  | some v => rfl

theorem upsert_eq_append_of_not_mem {α : Type} (k : String) (v : α) :
    ∀ l : List (String × α), k ∉ l.map Prod.fst → upsert k v l = l ++ [(k, v)] := by
  intro l
  induction l with
  | nil => intro _; rfl
  | cons q rest ih =>
      intro hk
      simp only [List.map_cons, List.mem_cons] at hk
      push_neg at hk
      simp only [upsert]
      rw [if_neg (fun h : q.1 = k => hk.1 h.symm), ih hk.2]
      rfl

theorem foldl_upsert_eq_append {α : Type} :
    ∀ (l init : List (String × α)),
      (∀ q ∈ l, q.1 ∉ init.map Prod.fst) → (l.map Prod.fst).Nodup →
      l.foldl (fun acc q => upsert q.1 q.2 acc) init = init ++ l := by
  intro l
  induction l with
  | nil => intro init _ _; simp
  | cons q rest ih =>
      intro init hdisj hnd
      simp only [List.foldl_cons]
      rw [upsert_eq_append_of_not_mem q.1 q.2 init (hdisj q (List.mem_cons_self _ _))]
      simp only [List.map_cons, List.nodup_cons] at hnd
      rw [ih (init ++ [(q.1, q.2)]) ?_ hnd.2]
      · simp
      · intro p hp
        simp only [List.map_append, List.mem_append]
        push_neg
        refine ⟨hdisj p (List.mem_cons_of_mem _ hp), ?_⟩
        simp only [List.map_cons, List.map_nil, List.mem_singleton]
        intro hc
        exact hnd.1 (hc ▸ List.mem_map_of_mem Prod.fst hp)

theorem dictOf_eq_self_of_nodup {α : Type} (l : List (String × α))
    (h : (l.map Prod.fst).Nodup) : dictOf l = l := by
  rw [dictOf, foldl_upsert_eq_append l [] (by simp) h]
  simp

/-! ### Lemmas about the chain of class specs -/

theorem chainPairs_length : ∀ l : List String, (chainPairs l).length = l.length - 1 := by
  intro l
  induction l with
  | nil => rfl
  | cons a t ih =>
      cases t with
      | nil => rfl
      | cons b rest =>
          simp only [chainPairs, List.length_cons] at ih ⊢
          omega

theorem chainPairs_getD :
    ∀ (l : List String) (i : Nat), i + 1 < l.length →
      (chainPairs l).getD i default = ⟨l.getD i "", l.getD (i + 1) ""⟩ := by
  intro l
  induction l with
  | nil => intro i hi; simp at hi
  | cons a t ih =>
      cases t with
      | nil => intro i hi; simp at hi
      | cons b rest =>
          intro i hi
          cases i with
          | zero => rfl
          | succ j =>
              simp only [chainPairs, List.getD_cons_succ]
              exact ih j (by simpa using hi)

theorem chainPairs_base_mem :
    ∀ (l : List String) (e : BaseClassSpec), e ∈ chainPairs l →
      e.base ∈ (chainPairs l).map BaseClassSpec.class_name ∨ e.base = l.getLastD "" := by
  intro l
  induction l with
  | nil => intro e he; simp [chainPairs] at he
  | cons a t ih =>
      cases t with
      | nil => intro e he; simp [chainPairs] at he
      | cons b rest =>
          intro e he
          rcases List.mem_cons.mp he with rfl | h
          · cases rest with
            | nil => right; rfl
            | cons c rest2 =>
                left
                simp [chainPairs]
          · rcases ih e h with h1 | h1
            · left
              simp only [chainPairs, List.map_cons, List.mem_cons]
              right
              exact (by simpa [chainPairs] using h1)
            · right
              simpa [List.getLastD] using h1

theorem chainPairs_class_mem (l : List String) (e : BaseClassSpec) (he : e ∈ chainPairs l) :
    e.class_name ∈ (chainPairs l).map BaseClassSpec.class_name :=
  List.mem_map_of_mem _ he

/-! ### Lemmas about textual precedence -/

theorem precedes_nil (b c : String) : ¬ Precedes b c [] := by
  rintro ⟨l1, l2, l3, h⟩
  exact List.cons_ne_nil _ _ (List.append_eq_nil.mp h.symm).2

theorem precedes_cons_iff (b c x : String) (xs : List String) :
    Precedes b c (x :: xs) ↔ (x = b ∧ c ∈ xs) ∨ Precedes b c xs := by
  constructor
  · rintro ⟨l1, l2, l3, h⟩
    cases l1 with
    | nil =>
        simp only [List.nil_append, List.cons.injEq] at h
        left
        refine ⟨h.1, ?_⟩
        rw [h.2]
        exact List.mem_append_right _ (List.mem_cons_self _ _)
    | cons y l1t =>
        simp only [List.cons_append, List.cons.injEq] at h
        exact Or.inr ⟨l1t, l2, l3, h.2⟩
  · rintro (⟨rfl, hc⟩ | ⟨l1, l2, l3, h⟩)
    · obtain ⟨s, t, rfl⟩ := List.append_of_mem hc
      exact ⟨[], s, t, rfl⟩
    · exact ⟨x :: l1, l2, l3, by rw [h]; rfl⟩

theorem precedes_iff_precedesB (b c : String) :
    ∀ l : List String, Precedes b c l ↔ precedesB b c l = true := by
  intro l
  induction l with
  | nil =>
      simp only [precedesB]
      exact iff_of_false (precedes_nil b c) (by simp)
  | cons x xs ih =>
      have hcont : (xs.contains c = true) ↔ c ∈ xs := by
        rw [List.contains_iff_exists_mem_beq]
        simp
      rw [precedes_cons_iff]
      simp only [precedesB, Bool.or_eq_true, Bool.and_eq_true, beq_iff_eq, hcont]
      rw [ih]

theorem precedes_filter (b c : String) (p : String → Bool) (l : List String)
    (hb : p b = true) (hc : p c = true) (h : Precedes b c l) :
    Precedes b c (l.filter p) := by
  obtain ⟨l1, l2, l3, rfl⟩ := h
  refine ⟨l1.filter p, l2.filter p, l3.filter p, ?_⟩
  simp [List.filter_append, List.filter_cons, hb, hc]

/-! ### Lemmas about the modelled topological sort -/

theorem exists_min_rank (rank : String → Nat) :
    ∀ l : List String, l ≠ [] → ∃ n ∈ l, ∀ m ∈ l, rank n ≤ rank m := by
  intro l
  induction l with
  | nil => intro h; exact absurd rfl h
  | cons x xs ih =>
      intro _
      by_cases hxs : xs = []
      · subst hxs
        refine ⟨x, List.mem_cons_self _ _, ?_⟩
        intro m hm
        rcases List.mem_cons.mp hm with rfl | hm
        · exact le_refl _
        · simp at hm
      · obtain ⟨n, hn, hmin⟩ := ih hxs
        by_cases hx : rank x ≤ rank n
        · refine ⟨x, List.mem_cons_self _ _, ?_⟩
          intro m hm
          rcases List.mem_cons.mp hm with rfl | hm
          · exact le_refl _
          · exact le_trans hx (hmin m hm)
        · refine ⟨n, List.mem_cons_of_mem _ hn, ?_⟩
          intro m hm
          rcases List.mem_cons.mp hm with rfl | hm
          · omega
          · exact hmin m hm

theorem topsortAux_subset (edges : List BaseClassSpec) :
    ∀ (fuel : Nat) (remaining : List String) (x : String),
      x ∈ topsortAux edges fuel remaining → x ∈ remaining := by
  intro fuel
  induction fuel with
  | zero => intro remaining x hx; exact hx
  | succ fuel ih =>
      intro remaining x hx
      simp only [topsortAux] at hx
      cases hf : remaining.find?
          (fun n => decide (∀ e ∈ edges, e.class_name = n → e.base ∉ remaining)) with
      | none => rw [hf] at hx; exact hx
      | some n =>
          rw [hf] at hx
          rcases List.mem_cons.mp hx with rfl | hx
          · exact List.mem_of_find?_eq_some hf
          · exact List.mem_of_mem_erase (ih _ _ hx)

theorem mem_topsortAux (edges : List BaseClassSpec) :
    ∀ (fuel : Nat) (remaining : List String) (x : String),
      x ∈ remaining → x ∈ topsortAux edges fuel remaining := by
  intro fuel
  induction fuel with
  | zero => intro remaining x hx; exact hx
  | succ fuel ih =>
      intro remaining x hx
      simp only [topsortAux]
      cases hf : remaining.find?
          (fun n => decide (∀ e ∈ edges, e.class_name = n → e.base ∉ remaining)) with
      | none => exact hx
      | some n =>
          by_cases hxn : x = n
          · exact hxn ▸ List.mem_cons_self _ _
          · exact List.mem_cons_of_mem _
              (ih _ _ ((List.mem_erase_of_ne hxn).mpr hx))

theorem topsortAux_nodup (edges : List BaseClassSpec) :
    ∀ (fuel : Nat) (remaining : List String),
      remaining.Nodup → (topsortAux edges fuel remaining).Nodup := by
  intro fuel
  induction fuel with
  | zero => intro remaining h; exact h
  | succ fuel ih =>
      intro remaining h
      simp only [topsortAux]
      cases hf : remaining.find?
          (fun n => decide (∀ e ∈ edges, e.class_name = n → e.base ∉ remaining)) with
      | none => exact h
      | some n =>
          refine List.Nodup.cons ?_ (ih _ (h.erase n))
          intro hc
          exact h.not_mem_erase (topsortAux_subset edges _ _ _ hc)

theorem topsortAux_precedes (edges : List BaseClassSpec) (rank : String → Nat)
    (hrank : ∀ e ∈ edges, rank e.base < rank e.class_name) :
    ∀ (fuel : Nat) (remaining : List String), remaining.length ≤ fuel →
      ∀ e ∈ edges, e.class_name ∈ remaining → e.base ∈ remaining →
        Precedes e.base e.class_name (topsortAux edges fuel remaining) := by
  intro fuel
  induction fuel with
  | zero =>
      intro remaining hlen e _ hc _
      rw [Nat.le_zero, List.length_eq_zero] at hlen
      rw [hlen] at hc
      exact absurd hc (List.not_mem_nil _)
  | succ fuel ih =>
      intro remaining hlen e he hc hb
      cases hf : remaining.find?
          (fun n => decide (∀ e ∈ edges, e.class_name = n → e.base ∉ remaining)) with
      | none =>
          exfalso
          rw [List.find?_eq_none] at hf
          obtain ⟨n, hn, hmin⟩ :=
            exists_min_rank rank remaining (List.ne_nil_of_mem hc)
          have h1 := hf n hn
          simp only [decide_eq_true_eq] at h1
          push_neg at h1
          obtain ⟨e2, he2, hcn, hbn⟩ := h1
          have h2 := hrank e2 he2
          have h3 := hmin e2.base hbn
          rw [hcn] at h2
          omega
      | some n =>
          have hpn : ∀ e ∈ edges, e.class_name = n → e.base ∉ remaining := by
            have := List.find?_some hf
            simpa using this
          have hnmem := List.mem_of_find?_eq_some hf
          have hstep : topsortAux edges (fuel + 1) remaining =
              n :: topsortAux edges fuel (remaining.erase n) := by
            simp only [topsortAux]
            rw [hf]
          rw [hstep]
          by_cases hcn : e.class_name = n
          · exact absurd hb (hpn e he hcn)
          · by_cases hbn : e.base = n
            · have hcr : e.class_name ∈ remaining.erase n :=
                (List.mem_erase_of_ne hcn).mpr hc
              have hcrest := mem_topsortAux edges fuel (remaining.erase n) _ hcr
              obtain ⟨s, t, hst⟩ := List.append_of_mem hcrest
              exact ⟨[], s, t, by rw [hst, hbn]; rfl⟩
            · have hcr : e.class_name ∈ remaining.erase n :=
                (List.mem_erase_of_ne hcn).mpr hc
              have hbr : e.base ∈ remaining.erase n :=
                (List.mem_erase_of_ne hbn).mpr hb
              have hlen2 : (remaining.erase n).length ≤ fuel := by
                rw [List.length_erase_of_mem hnmem]
                omega
              obtain ⟨l1, l2, l3, hsplit⟩ := ih (remaining.erase n) hlen2 e he hcr hbr
              exact ⟨n :: l1, l2, l3, by rw [hsplit]; rfl⟩

/-! ### The modelled sort orders strings exactly as Python sorted does -/

theorem lexLe_iff_not_lt : ∀ as bs : List Char, lexLe as bs = true ↔ ¬ List.lt bs as := by
  intro as
  induction as with
  | nil =>
      intro bs
      cases bs with
      | nil => exact iff_of_true rfl (fun h => nomatch h)
      | cons b bs => exact iff_of_true rfl (fun h => nomatch h)
  | cons a as ih =>
      intro bs
      cases bs with
      | nil =>
          apply iff_of_false
          · simp [lexLe]
          · intro hn
            exact hn (List.lt.nil a as)
      | cons b bs =>
          by_cases hab : a.val < b.val
          · apply iff_of_true
            · simp [lexLe, hab]
            · intro h
              cases h with
              | head _ _ hba => exact absurd hba (lt_asymm hab)
              | tail h1 h2 h3 => exact h2 hab
          · by_cases hba : b.val < a.val
            · apply iff_of_false
              · simp [lexLe, hab, hba]
              · intro hn
                exact hn (List.lt.head _ _ hba)
            · have heq : lexLe (a :: as) (b :: bs) = lexLe as bs := by
                simp [lexLe, hab, hba]
              rw [heq, ih bs]
              constructor
              · intro h hcon
                cases hcon with
                | head _ _ h4 => exact hba h4
                | tail _ _ h5 => exact h h5
              · intro h hcon
                exact h (List.lt.tail hba hab hcon)

theorem pyLe_iff (a b : String) : PyLe a b ↔ a ≤ b := by
  have h1 : b < a ↔ List.lt b.data a.data := by
    rw [String.lt_iff_toList_lt]
    exact (List.lt_iff_lex_lt b.data a.data).symm
  show lexLe a.data b.data = true ↔ a ≤ b
  rw [lexLe_iff_not_lt, ← h1]
  exact not_lt

/-! ### Lemmas about the aggregation pipeline of generate_model -/

theorem keys_upsert_superset {α : Type} (k : String) (v : α) (l : List (String × α))
    (x : String) (hx : x ∈ l.map Prod.fst) : x ∈ (upsert k v l).map Prod.fst := by
  rw [keys_upsert]
  split_ifs with h
  · exact hx
  · exact List.mem_append_left _ hx

theorem key_self_mem_upsert {α : Type} (k : String) (v : α) (l : List (String × α)) :
    k ∈ (upsert k v l).map Prod.fst := by
  rw [keys_upsert]
  split_ifs with h
  · exact h
  · exact List.mem_append_right _ (List.mem_singleton_self _)

theorem nodup_keys_upsert {α : Type} (k : String) (v : α) (l : List (String × α))
    (h : (l.map Prod.fst).Nodup) : ((upsert k v l).map Prod.fst).Nodup := by
  rw [keys_upsert]
  split_ifs with hk
  · exact h
  · rw [← List.concat_eq_append]
    exact List.Nodup.concat hk h

theorem base_class_specs_cases (r : Rule) :
    _base_class_specs r = [] ∨
    ∃ s rest, r.params = Param.str s :: rest ∧
      _base_class_specs r =
        chainPairs ((pySplitColons s).map safe_name ++ [_model_base_name]) := by
  cases hp : r.params with
  | nil => left; unfold _base_class_specs; rw [hp]
  | cons p ps =>
      cases p with
      | str s =>
          right
          exact ⟨s, ps, rfl, by unfold _base_class_specs; rw [hp]⟩
      | other => left; unfold _base_class_specs; rw [hp]

theorem mem_ruleSpecsAll (g : Grammar) (p : String × List BaseClassSpec)
    (hp : p ∈ ruleSpecsAll g) : ∃ r ∈ g.rules, p = (r.name, _base_class_specs r) := by
  have h := mem_dictOf _ _ hp
  obtain ⟨r, hr, he⟩ := List.mem_map.mp h
  exact ⟨r, hr, he.symm⟩

theorem mem_ruleSpecs (g : Grammar) (p : String × List BaseClassSpec)
    (hp : p ∈ ruleSpecs g) :
    (∃ r ∈ g.rules, p = (r.name, _base_class_specs r)) ∧ p.2 ≠ [] := by
  rw [ruleSpecs, List.mem_filter] at hp
  refine ⟨mem_ruleSpecsAll g p hp.1, ?_⟩
  simpa using hp.2

theorem mem_ruleIndex (g : Grammar) (q : String × Rule) (hq : q ∈ ruleIndex g) :
    ∃ r ∈ g.rules, q = (r.name, r) := by
  have h := mem_dictOf _ _ hq
  obtain ⟨r, hr, he⟩ := List.mem_map.mp h
  exact ⟨r, hr, he.symm⟩

theorem mem_modelToRule (g : Grammar) (p : String × Rule) (hp : p ∈ modelToRule g) :
    ∃ q ∈ ruleIndex g, ∃ s rest,
      alGet q.1 (ruleSpecs g) = some (s :: rest) ∧ p = (s.class_name, q.2) := by
  have h := mem_dictOf _ _ hp
  obtain ⟨q, hq, he⟩ := List.mem_filterMap.mp h
  refine ⟨q, hq, ?_⟩
  cases hg : alGet q.1 (ruleSpecs g) with
  | none => rw [hg] at he; exact absurd he (by simp)
  | some specs =>
      cases specs with
      | nil => rw [hg] at he; exact absurd he (by simp)
      | cons s rest =>
          rw [hg] at he
          simp only [Option.some.injEq] at he
          exact ⟨s, rest, rfl, he.symm⟩

theorem mem_joinedSpecs (g : Grammar) (e : BaseClassSpec) (he : e ∈ joinedSpecs g) :
    ∃ specs, specs ∈ (ruleSpecs g).map Prod.snd ∧ e ∈ specs := by
  rw [joinedSpecs, List.mem_flatten] at he
  exact he

theorem class_name_mem_keys (g : Grammar) (btn : String) (e : BaseClassSpec)
    (he : e ∈ joinedSpecs g) :
    e.class_name ∈ (specsByName g btn).map Prod.fst := by
  rw [specsByName]
  refine keys_upsert_superset _ _ _ _ ?_
  refine key_mem_dictOf _ (e.class_name, e.base) ?_
  exact List.mem_map.mpr ⟨e, he, rfl⟩

theorem base_mem_keys (g : Grammar) (btn : String) (e : BaseClassSpec)
    (he : e ∈ joinedSpecs g) :
    e.base ∈ (specsByName g btn).map Prod.fst := by
  obtain ⟨specs, hs, hes⟩ := mem_joinedSpecs g e he
  obtain ⟨p, hp, hps⟩ := List.mem_map.mp hs
  obtain ⟨⟨r, _, hpr⟩, _⟩ := mem_ruleSpecs g p hp
  rcases base_class_specs_cases r with hbc | ⟨s, rest, _, hbc⟩
  · rw [hpr] at hps
    simp only at hps
    rw [← hps, hbc] at hes
    exact absurd hes (List.not_mem_nil _)
  · have hspecs : specs = chainPairs ((pySplitColons s).map safe_name ++ [_model_base_name]) := by
      rw [hpr] at hps
      simp only at hps
      rw [← hps, hbc]
    rw [hspecs] at hes
    rcases chainPairs_base_mem _ e hes with h1 | h1
    · obtain ⟨e2, he2, he2c⟩ := List.mem_map.mp h1
      have he2j : e2 ∈ joinedSpecs g := by
        rw [joinedSpecs, List.mem_flatten]
        exact ⟨specs, hs, by rw [hspecs]; exact he2⟩
      rw [← he2c]
      exact class_name_mem_keys g btn e2 he2j
    · rw [List.getLastD_concat] at h1
      rw [h1, specsByName]
      exact key_self_mem_upsert _ _ _

theorem mem_allSpecs_iff (g : Grammar) (e : BaseClassSpec) :
    e ∈ allSpecs g ↔ e ∈ joinedSpecs g :=
  mem_dedupFirst _ e

theorem nodup_keys_specsByName (g : Grammar) (btn : String) :
    ((specsByName g btn).map Prod.fst).Nodup := by
  rw [specsByName]
  exact nodup_keys_upsert _ _ _ (nodup_keys_dictOf _)

theorem mem_modelNames_of_mem_keys (g : Grammar) (btn : String) (n : String)
    (hn : n ∈ (specsByName g btn).map Prod.fst) : n ∈ modelNames g btn := by
  rw [modelNames, topsort]
  exact mem_topsortAux _ _ _ _ (List.mem_reverse.mpr hn)

theorem mem_keys_of_mem_modelNames (g : Grammar) (btn : String) (n : String)
    (hn : n ∈ modelNames g btn) : n ∈ (specsByName g btn).map Prod.fst := by
  rw [modelNames, topsort] at hn
  exact List.mem_reverse.mp (topsortAux_subset _ _ _ _ hn)

theorem nodup_modelNames (g : Grammar) (btn : String) : (modelNames g btn).Nodup := by
  rw [modelNames, topsort]
  exact topsortAux_nodup _ _ _
    (List.nodup_reverse.mpr (nodup_keys_specsByName g btn))

theorem getD_append_length {α : Type} (l : List α) (x d : α) :
    (l ++ [x]).getD l.length d = x := by
  induction l with
  | nil => rfl
  | cons a t ih => simp [ih]

/-! ### The claims -/

/-- C1: for a rule whose first declared parameter is the string `s`, the
Hierarchy Extractor returns exactly one ClassSpec per `::`-separated name
of `s`; spec `i` pairs the `i`-th sanitized name with the next one, the
last sanitized name is paired with the constant root base name
`ModelBase`, and a single-name annotation `A` yields exactly
`[(A, ModelBase)]`. -/
theorem c1_hierarchy_extractor_chain (rule : Rule) (s : String) (rest : List Param)
    (h : rule.params = Param.str s :: rest) :
    (_base_class_specs rule).length = ((pySplitColons s).map safe_name).length ∧
    (∀ i, i < ((pySplitColons s).map safe_name).length →
      (_base_class_specs rule).getD i default =
        ⟨((pySplitColons s).map safe_name ++ [_model_base_name]).getD i "",
         ((pySplitColons s).map safe_name ++ [_model_base_name]).getD (i + 1) ""⟩) ∧
    ((pySplitColons s).map safe_name ++ [_model_base_name]).getD
        ((pySplitColons s).map safe_name).length "" = "ModelBase" ∧
    (∀ a, (pySplitColons s).map safe_name = [a] →
      _base_class_specs rule = [⟨a, "ModelBase"⟩]) := by
  have hbc : _base_class_specs rule =
      chainPairs ((pySplitColons s).map safe_name ++ [_model_base_name]) := by
    unfold _base_class_specs
    rw [h]
  refine ⟨?_, ?_, ?_, ?_⟩
  · rw [hbc, chainPairs_length]
    simp
  · intro i hi
    rw [hbc]
    apply chainPairs_getD
    simp only [List.length_append, List.length_cons, List.length_nil]
    omega
  · rw [getD_append_length]
    rfl
  · intro a ha
    rw [hbc, ha]
    rfl

/-- C1 witness: the single-name annotation `A` on `ruleA1` yields exactly
the one ClassSpec `(A, ModelBase)`. -/
theorem c1_witness : _base_class_specs ruleA1 = [⟨"A", "ModelBase"⟩] :=
  (c1_hierarchy_extractor_chain ruleA1 "A" [] rfl).2.2.2 "A" (by decide)

/-- C2 counterexample: in the grammar `gCyc`, whose rules annotate
`A::B` and `B::A`, the edge `(B, A)` is aggregated, yet the declaration
of its base `A` does not precede the declaration of its class `B`, so
the claim fails as stated for this grammar. -/
theorem c2_counterexample :
    (⟨"B", "A"⟩ : BaseClassSpec) ∈ allSpecs gCyc ∧
    ¬ Precedes "A" "B" (declaredClassNames gCyc "Node") := by
  refine ⟨by decide, ?_⟩
  rw [precedes_iff_precedesB]
  decide

/-- C2 amended: whenever the aggregated edge set is acyclic (witnessed
by a rank function that strictly decreases from every class to its
base), the declaration order respects the hierarchy: for every
aggregated ClassSpec edge `(class_name, base_name)` whose two endpoints
are not skipped builtins, the declaration of `base_name` textually
precedes the declaration of `class_name`. -/
theorem c2_declaration_order (g : Grammar) (btn : String) (rank : String → Nat)
    (hrank : ∀ e ∈ allSpecs g, rank e.base < rank e.class_name)
    (e : BaseClassSpec) (he : e ∈ allSpecs g)
    (hcb : e.class_name ∉ builtinsNames) (hbb : e.base ∉ builtinsNames) :
    Precedes e.base e.class_name (declaredClassNames g btn) := by
  have hej : e ∈ joinedSpecs g := (mem_allSpecs_iff g e).mp he
  have hc : e.class_name ∈ ((specsByName g btn).map Prod.fst).reverse :=
    List.mem_reverse.mpr (class_name_mem_keys g btn e hej)
  have hb : e.base ∈ ((specsByName g btn).map Prod.fst).reverse :=
    List.mem_reverse.mpr (base_mem_keys g btn e hej)
  have hpre : Precedes e.base e.class_name (modelNames g btn) := by
    rw [modelNames, topsort]
    exact topsortAux_precedes (allSpecs g) rank hrank _ _ (le_refl _) e he hc hb
  rw [declaredClassNames]
  refine precedes_filter _ _ _ _ ?_ ?_ hpre
  · simp [hbb]
  · simp [hcb]

/-- C2 witness: in the grammar with the single rule `A::B` the edge
`(A, B)` is aggregated, the edge set is acyclic, and the declaration of
`B` precedes the declaration of `A`. -/
theorem c2_witness :
    (∀ e ∈ allSpecs gAB, rankAB e.base < rankAB e.class_name) ∧
    (⟨"A", "B"⟩ : BaseClassSpec) ∈ allSpecs gAB ∧
    Precedes "B" "A" (declaredClassNames gAB "Node") :=
  ⟨by decide, by decide,
    c2_declaration_order gAB "Node" rankAB (by decide) ⟨"A", "B"⟩ (by decide)
      (by decide) (by decide)⟩

/-- C3 counterexample: for the round-trip grammar (rule `foo` with
params `["Foo::Base"]` defining `x` and `y`, root type `Node`) the
output never declares `Base` with base `Node`; `Base` derives from the
synthetic root `ModelBase` instead. -/
theorem c3_counterexample :
    "class Base(Node):" ∉ generate_model g3 "" nodeBaseType ∧
    "class Base(ModelBase):" ∈ generate_model g3 "" nodeBaseType := by
  exact ⟨by decide, by decide⟩

/-- C3 amended: for the round-trip grammar the output is the header
followed, in order, by `class ModelBase(Node)` with a pass body, then
`class Base(ModelBase)` with a pass body, then `class Foo(Base)` with
exactly the fields `x` and `y`, each declared `: Any = None`. -/
theorem c3_amended_roundtrip :
    generate_model g3 "" nodeBaseType =
      headerLines "Gr" "from tatsu.objectmodel import Node" ++
      ["", "", "@dataclass(eq=False)", "class ModelBase(Node):", "    pass",
       "", "", "@dataclass(eq=False)", "class Base(ModelBase):", "    pass",
       "", "", "@dataclass(eq=False)", "class Foo(Base):",
       "    x: Any = None", "    y: Any = None"] := by
  decide

/-- C5: a rule whose parameter list is empty or whose first parameter is
not a string yields no ClassSpecs (and no error: the extractor is total),
is dropped from the spec aggregation, and is never the rule a declared
class takes its attributes from. -/
theorem c5_unannotated_rule_skipped (g : Grammar) (r : Rule)
    (_hr : r ∈ g.rules)
    (hp : r.params = [] ∨ ∃ rest, r.params = Param.other :: rest)
    (huniq : ∀ r2 ∈ g.rules, r2.name = r.name → r2 = r) :
    _base_class_specs r = [] ∧
    r.name ∉ (ruleSpecs g).map Prod.fst ∧
    ∀ p ∈ modelToRule g, p.2.name ≠ r.name := by
  have h1 : _base_class_specs r = [] := by
    rcases hp with hp | ⟨rest, hp⟩
    · unfold _base_class_specs
      rw [hp]
    · unfold _base_class_specs
      rw [hp]
  have h2 : r.name ∉ (ruleSpecs g).map Prod.fst := by
    intro hc
    obtain ⟨p, hpmem, hpk⟩ := List.mem_map.mp hc
    obtain ⟨⟨r2, hr2, hpe⟩, hne⟩ := mem_ruleSpecs g p hpmem
    rw [hpe] at hpk hne
    simp only at hpk hne
    rw [huniq r2 hr2 hpk, h1] at hne
    exact hne rfl
  refine ⟨h1, h2, ?_⟩
  intro p hpm hc
  obtain ⟨q, hq, s, srest, hget, hpe⟩ := mem_modelToRule g p hpm
  obtain ⟨r2, hr2, hqe⟩ := mem_ruleIndex g q hq
  rw [hpe] at hc
  simp only at hc
  rw [hqe] at hc hget
  simp only at hc hget
  have hk : r2.name ∈ (ruleSpecs g).map Prod.fst := by
    rw [← alGet_isSome_iff, hget]
    rfl
  rw [huniq r2 hr2 hc] at hk
  exact h2 hk

/-- C5 witness: in `g5` the rule `plain` has an empty parameter list,
yields no specs, and its name is dropped from the aggregation. -/
theorem c5_witness :
    (⟨"plain", [], [("x", false)]⟩ : Rule) ∈ g5.rules ∧
    _base_class_specs ⟨"plain", [], [("x", false)]⟩ = [] ∧
    "plain" ∉ (ruleSpecs g5).map Prod.fst := by
  have h := c5_unannotated_rule_skipped g5 ⟨"plain", [], [("x", false)]⟩
    (by decide) (Or.inl rfl) (by decide)
  exact ⟨by decide, h.1, h.2.1⟩

/-- C6: a class name that is a builtin identifier of the target language
is skipped by the emission loop: it is not among the declared class
names and its loop iteration prints nothing (and no error is raised:
the loop body is total). -/
theorem c6_builtin_names_skipped (g : Grammar) (btn : String) (n : String)
    (hn : n ∈ builtinsNames) :
    n ∉ declaredClassNames g btn ∧ emitBlock g btn n = [] := by
  constructor
  · intro hc
    rw [declaredClassNames, List.mem_filter] at hc
    have h2 := hc.2
    simp only [decide_eq_true_eq] at h2
    exact h2 hn
  · rw [emitBlock, if_pos hn]

/-- C6 witness: in `gList` the name `list` appears in the aggregated
edge set and in the sorted model names, yet it is not declared. -/
theorem c6_witness :
    (⟨"Foo", "list"⟩ : BaseClassSpec) ∈ allSpecs gList ∧
    "list" ∈ modelNames gList "Node" ∧
    "list" ∉ declaredClassNames gList "Node" :=
  ⟨by decide, by decide,
    (c6_builtin_names_skipped gList "Node" "list" (by decide)).1⟩

/-- C7: modelgen is deterministic and stateless across calls: the
embedding is a pure function of the grammar, the name and the base
type, so two invocations on equal inputs return byte-identical texts. -/
theorem c7_modelgen_deterministic (g1 g2 : Grammar) (n1 n2 : String)
    (b1 b2 : Option BaseType) (hg : g1 = g2) (hn : n1 = n2) (hb : b1 = b2) :
    modelgen g1 n1 b1 = modelgen g2 n2 b2 := by
  rw [hg, hn, hb]

/-- C7 witness: two runs on the grammar `gAB` agree. -/
theorem c7_witness :
    gAB = gAB ∧ modelgen gAB "N" none = modelgen gAB "N" none :=
  ⟨rfl, c7_modelgen_deterministic gAB gAB "N" "N" none none rfl rfl rfl⟩

/-- C8: the baseless branch of the base-class emitter is unreachable:
every name in the sorted model names has a recorded base in
`specs_by_name`, because every edge endpoint other than `ModelBase` is
some ClassSpec class name and `ModelBase` itself is mapped to the root
type name. -/
theorem c8_base_always_recorded (g : Grammar) (btn : String) (n : String)
    (hn : n ∈ modelNames g btn) :
    alGet n (specsByName g btn) ≠ none ∧
    ∃ b, alGet n (specsByName g btn) = some b := by
  obtain ⟨b, hb⟩ :=
    alGet_eq_some_of_mem _ _ (mem_keys_of_mem_modelNames g btn n hn)
  exact ⟨by rw [hb]; exact Option.some_ne_none b, b, hb⟩

/-- C8 witness: the synthetic class `Base` of the round-trip grammar has
a recorded base. -/
theorem c8_witness :
    "Base" ∈ modelNames g3 "Node" ∧ alGet "Base" (specsByName g3 "Node") ≠ none :=
  ⟨by decide, (c8_base_always_recorded g3 "Node" "Base" (by decide)).1⟩

/-- C9: the aggregated edge list is duplicate-free, the declared class
names are duplicate-free for every grammar, and in the two-rule
`Shared::Root` grammar the identical edges collapse to two and the class
`Shared` is declared exactly once. -/
theorem c9_dedup_and_single_declaration :
    (∀ (g : Grammar) (btn : String),
      (allSpecs g).Nodup ∧ (declaredClassNames g btn).Nodup) ∧
    (allSpecs gShared).length = 2 ∧
    (bodyLines gShared "Node").count "class Shared(Root):" = 1 ∧
    declaredClassNames gShared "Node" = ["ModelBase", "Root", "Shared"] := by
  refine ⟨?_, by decide, by decide, by decide⟩
  intro g btn
  exact ⟨nodup_dedupFirst _, List.Nodup.filter _ (nodup_modelNames g btn)⟩

/-- C4: the field list of every rule-backed class is duplicate-free,
sorted lexicographically by code point, and holds exactly the sanitized
names the rule defines; a rule with no attributes is emitted with a
`pass` body, a rule with attributes is emitted with one `: Any = None`
field line per sorted name; and a rule defining `z, a, m, z` yields the
fields `a, m, z`. -/
theorem c4_rule_class_fields :
    (∀ (rule : Rule) (cn b : String) (rest : List BaseClassSpec),
      List.Sorted (· ≤ ·) (ruleClassFields rule) ∧
      (ruleClassFields rule).Nodup ∧
      (∀ f, f ∈ ruleClassFields rule ↔
        ∃ d, (∃ fl, (d, fl) ∈ rule.defines) ∧ f = safe_name d) ∧
      (ruleClassFields rule = [] →
        _gen_rule_class rule (⟨cn, b⟩ :: rest) =
          ["", "", "@dataclass(eq=False)", s!"class {cn}({b}):", "    pass"]) ∧
      (ruleClassFields rule ≠ [] →
        _gen_rule_class rule (⟨cn, b⟩ :: rest) =
          ["", "", "@dataclass(eq=False)", s!"class {cn}({b}):"] ++
          (ruleClassFields rule).map fun f => s!"    {f}: Any = None")) ∧
    ruleClassFields zamRule = ["a", "m", "z"] := by
  refine ⟨?_, by decide⟩
  intro rule cn b rest
  have hsortPy : List.Sorted PyLe (ruleClassFields rule) := by
    haveI : IsTotal String PyLe :=
      ⟨fun a b => by rw [pyLe_iff, pyLe_iff]; exact le_total a b⟩
    haveI : IsTrans String PyLe :=
      ⟨fun a b c h1 h2 => by
        rw [pyLe_iff] at h1 h2 ⊢
        exact le_trans h1 h2⟩
    exact List.sorted_insertionSort PyLe _
  have hperm := List.perm_insertionSort PyLe
    (((compress_seq rule.defines).map fun d => safe_name d.1).dedup)
  refine ⟨?_, ?_, ?_, ?_, ?_⟩
  · exact List.Pairwise.imp (fun h => (pyLe_iff _ _).mp h) hsortPy
  · exact hperm.nodup_iff.mpr (List.nodup_dedup _)
  · intro f
    constructor
    · intro hf
      have hf2 := hperm.mem_iff.mp hf
      rw [List.mem_dedup] at hf2
      obtain ⟨p, hp, hpe⟩ := List.mem_map.mp hf2
      rw [compress_seq, mem_dedupFirst] at hp
      exact ⟨p.1, ⟨p.2, hp⟩, hpe.symm⟩
    · rintro ⟨d, ⟨fl, hdf⟩, rfl⟩
      apply hperm.mem_iff.mpr
      rw [List.mem_dedup]
      refine List.mem_map.mpr ⟨(d, fl), ?_, rfl⟩
      rw [compress_seq, mem_dedupFirst]
      exact hdf
  · intro hempty
    simp [_gen_rule_class, hempty]
  · intro hne
    have hie : (ruleClassFields rule).isEmpty = false := by
      cases hfc : ruleClassFields rule with
      | nil => exact absurd hfc hne
      | cons a t => rfl
    simp [_gen_rule_class, hie]

/-- C4 witness: a rule with a spec chain and no attributes is emitted
with an explicit pass body. -/
theorem c4_witness :
    ruleClassFields emptyRule = [] ∧
    _gen_rule_class emptyRule [⟨"E", "ModelBase"⟩] =
      ["", "", "@dataclass(eq=False)", "class E(ModelBase):", "    pass"] :=
  ⟨by decide,
    (c4_rule_class_fields.1 emptyRule "E" "ModelBase" []).2.2.2.1 (by decide)⟩

/-! ### Plumbing for the last-writer-wins claim -/

theorem ruleIndex_eq (g : Grammar) (hnames : (g.rules.map Rule.name).Nodup) :
    ruleIndex g = g.rules.map fun r => (r.name, r) := by
  apply dictOf_eq_self_of_nodup
  rw [List.map_map]
  exact hnames

theorem ruleSpecsAll_eq (g : Grammar) (hnames : (g.rules.map Rule.name).Nodup) :
    ruleSpecsAll g = g.rules.map fun r => (r.name, _base_class_specs r) := by
  apply dictOf_eq_self_of_nodup
  rw [List.map_map]
  exact hnames

theorem alGet_filtered_specs :
    ∀ rs : List Rule, ((rs.map Rule.name).Nodup) → ∀ r ∈ rs,
      alGet r.name ((rs.map fun x => (x.name, _base_class_specs x)).filter
          fun p => decide (p.2 ≠ [])) =
        if _base_class_specs r = [] then none else some (_base_class_specs r) := by
  intro rs
  induction rs with
  | nil => intro _ r hr; exact absurd hr (List.not_mem_nil _)
  | cons x rest ih =>
      intro hnd r hr
      simp only [List.map_cons, List.nodup_cons] at hnd
      simp only [List.map_cons, List.filter_cons]
      rcases List.mem_cons.mp hr with rfl | hr
      · by_cases hx : _base_class_specs r = []
        · rw [if_pos hx]
          have hcond : (decide (((r.name, _base_class_specs r) :
              String × List BaseClassSpec).2 ≠ [])) = false := by
            simp [hx]
          rw [hcond]
          simp only [Bool.false_eq_true, if_neg (by simp : ¬ False)]
          apply alGet_eq_none_of_not_mem
          intro hc
          obtain ⟨p, hpmem, hpk⟩ := List.mem_map.mp hc
          have hpf := (List.mem_filter.mp hpmem).1
          obtain ⟨r2, hr2, hpe⟩ := List.mem_map.mp hpf
          rw [← hpe] at hpk
          simp only at hpk
          exact hnd.1 (hpk ▸ List.mem_map_of_mem Rule.name hr2)
        · rw [if_neg hx]
          have hcond : (decide (((r.name, _base_class_specs r) :
              String × List BaseClassSpec).2 ≠ [])) = true := by
            simp [hx]
          rw [hcond]
          simp only [if_pos trivial]
          simp [alGet]
      · have hxr : ¬ x.name = r.name :=
          fun hc => hnd.1 (hc ▸ List.mem_map_of_mem Rule.name hr)
        by_cases hxs : _base_class_specs x = []
        · have hcond : (decide (((x.name, _base_class_specs x) :
              String × List BaseClassSpec).2 ≠ [])) = false := by
            simp [hxs]
          rw [hcond]
          simp only [Bool.false_eq_true, if_neg (by simp : ¬ False)]
          exact ih hnd.2 r hr
        · have hcond : (decide (((x.name, _base_class_specs x) :
              String × List BaseClassSpec).2 ≠ [])) = true := by
            simp [hxs]
          rw [hcond]
          simp only [if_pos trivial]
          rw [alGet, if_neg hxr]
          exact ih hnd.2 r hr

theorem alGet_ruleSpecs (g : Grammar) (hnames : (g.rules.map Rule.name).Nodup)
    (r : Rule) (hr : r ∈ g.rules) :
    alGet r.name (ruleSpecs g) =
      if _base_class_specs r = [] then none else some (_base_class_specs r) := by
  rw [ruleSpecs, ruleSpecsAll_eq g hnames]
  exact alGet_filtered_specs g.rules hnames r hr

theorem modelToRule_eq (g : Grammar) (hnames : (g.rules.map Rule.name).Nodup) :
    modelToRule g = dictOf (g.rules.filterMap fun r =>
      match _base_class_specs r with
      | s :: _ => some (s.class_name, r)
      | [] => none) := by
  rw [modelToRule, ruleIndex_eq g hnames, List.filterMap_map]
  congr 1
  apply List.filterMap_congr
  intro r hr
  simp only [Function.comp]
  rw [alGet_ruleSpecs g hnames r hr]
  by_cases hb : _base_class_specs r = []
  · rw [if_pos hb, hb]
  · rw [if_neg hb]
    cases hbc : _base_class_specs r with
    | nil => exact absurd hbc hb
    | cons s srest => rfl

/-- C10: when two distinct annotated rules share the same leaf class
name `L` and no later rule claims `L`, the `model_to_rule` map sends `L`
to the rule occurring last in grammar order, so the single emitted class
for `L` takes its attributes from that last rule and the attributes of the
earlier rule are ignored. -/
theorem c10_last_rule_wins (g : Grammar) (btn : String) (r1 r2 : Rule) (L : String)
    (l1 l2 l3 : List Rule)
    (hg : g.rules = l1 ++ r1 :: (l2 ++ r2 :: l3))
    (hnames : (g.rules.map Rule.name).Nodup)
    (h1 : ∃ b1 rest1, _base_class_specs r1 = ⟨L, b1⟩ :: rest1)
    (h2 : ∃ b2 rest2, _base_class_specs r2 = ⟨L, b2⟩ :: rest2)
    (h3 : ∀ r3 ∈ l3, ∀ s rest, _base_class_specs r3 = s :: rest → s.class_name ≠ L) :
    alGet L (modelToRule g) = some r2 ∧
    (L ∉ builtinsNames →
      emitBlock g btn L = _gen_rule_class r2 (_base_class_specs r2)) := by
  obtain ⟨b1, rest1, h1e⟩ := h1
  obtain ⟨b2, rest2, h2e⟩ := h2
  have hr2mem : r2 ∈ g.rules := by
    rw [hg]
    exact List.mem_append_right _ (List.mem_cons_of_mem _
      (List.mem_append_right _ (List.mem_cons_self _ _)))
  have hlast : alGet L (modelToRule g) = some r2 := by
    rw [modelToRule_eq g hnames, alGet_dictOf, hg]
    set G : Rule → Option (String × Rule) := fun r =>
      match _base_class_specs r with
      | s :: _ => some (s.class_name, r)
      | [] => none with hGdef
    have hG1 : G r1 = some (L, r1) := by
      simp only [hGdef, h1e]
    have hG2 : G r2 = some (L, r2) := by
      simp only [hGdef, h2e]
    have hF3 : ((l3.filterMap G).filter fun q => decide (q.1 = L)) = [] := by
      rw [List.filter_eq_nil_iff]
      intro q hq
      obtain ⟨r3, hr3, hGr3⟩ := List.mem_filterMap.mp hq
      simp only [hGdef] at hGr3
      cases hbc : _base_class_specs r3 with
      | nil => rw [hbc] at hGr3; simp at hGr3
      | cons s srest =>
          rw [hbc] at hGr3
          simp only [Option.some.injEq] at hGr3
          have hne := h3 r3 hr3 s srest hbc
          rw [← hGr3]
          simp [hne]
    rw [List.filterMap_append, List.filterMap_cons_some hG1,
      List.filterMap_append, List.filterMap_cons_some hG2]
    rw [List.filter_append, List.filter_cons_of_pos (by simp),
      List.filter_append, List.filter_cons_of_pos (by simp), hF3]
    rw [List.map_append, List.map_cons, List.map_append, List.map_cons]
    simp only [List.map_nil]
    have hfin : ∀ M1 M2 : List Rule,
        (M1 ++ r1 :: (M2 ++ [r2])).getLast? = some r2 := by
      intro M1 M2
      rw [show M1 ++ r1 :: (M2 ++ [r2]) = (M1 ++ r1 :: M2) ++ [r2] by simp]
      exact List.getLast?_concat _
    exact hfin _ _
  refine ⟨hlast, ?_⟩
  intro hLb
  have hne2 : _base_class_specs r2 ≠ [] := by
    rw [h2e]
    exact List.cons_ne_nil _ _
  calc emitBlock g btn L
      = _gen_rule_class r2 ((alGet r2.name (ruleSpecs g)).getD []) := by
        unfold emitBlock
        rw [if_neg hLb, hlast]
    _ = _gen_rule_class r2 (_base_class_specs r2) := by
        rw [alGet_ruleSpecs g hnames r2 hr2mem, if_neg hne2]
        rfl

/-- C10 witness: in `gDup` both rules claim leaf class `L`; the emitted
class for `L` carries the attributes of the second rule. -/
theorem c10_witness :
    alGet "L" (modelToRule gDup) = some ⟨"second", [Param.str "L::B2"], [("q", false)]⟩ ∧
    emitBlock gDup "Node" "L" =
      _gen_rule_class ⟨"second", [Param.str "L::B2"], [("q", false)]⟩
        (_base_class_specs ⟨"second", [Param.str "L::B2"], [("q", false)]⟩) := by
  have h := c10_last_rule_wins gDup "Node"
    ⟨"first", [Param.str "L::B1"], [("p", false)]⟩
    ⟨"second", [Param.str "L::B2"], [("q", false)]⟩ "L" [] [] []
    (by decide) (by decide)
    ⟨"B1", [⟨"B1", "ModelBase"⟩], by decide⟩
    ⟨"B2", [⟨"B2", "ModelBase"⟩], by decide⟩
    (by intro r3 hr3; exact absurd hr3 (List.not_mem_nil _))
  exact ⟨h.1, h.2 (by decide)⟩
